import Mathlib

set_option maxRecDepth 100000

/-!
Verification of the combined encode-and-sign driver of `src/enc.c`.

The development shallowly embeds the encoding loop `hs_encode` and its rolling
checksum helpers `_hs_update_sums` and `_hs_roll_sums` as executable Lean
functions.  Machine `uint32_t` arithmetic is modelled as `Nat` with explicit
reduction modulo `2 ^ 32`.  Helpers of the repository that are not part of
`src/` (the single-shot weak checksum, the signature lookup, the byte buffer
primitives, the netlong reader, the literal-buffer flusher and the stats
accounting inside the emit primitives) are modelled from the spec; each such
definition carries a doc comment saying so.
-/

/-- Wraparound bound of unsigned 32-bit arithmetic, 2 ^ 32. -/
def M32 : ℕ := 4294967296

/-- Modelled from the spec: the `offset_const` added to every byte by the weak
checksum (`CHAR_OFFSET` in the library's checksum module, which is not under
`src/`).  The concrete value 31 is the library's conventional offset; the
general theorems below hold for the recurrences at any offset, and only the
concrete counterexamples instantiate the constant. -/
def CHAR_OFFSET : ℕ := 31

/-- Modelled from the spec: width in bytes of a strong checksum
(`SUM_LENGTH`, declared outside `src/`).  No theorem depends on its value. -/
def SUM_LENGTH : ℕ := 8

/-- Modelled from the spec: the one signature-stream magic value this
implementation understands (`HS_SIG_MAGIC`, declared outside `src/`).  The
concrete value is immaterial; theorems treat it as an opaque constant. -/
def HS_SIG_MAGIC : ℕ := 1734890821

/-- Unsigned 32-bit subtraction: `x - y` with wraparound, on naturals. -/
def sub32 (x y : ℕ) : ℕ := (x + (M32 - y % M32)) % M32

/-- The rolling checksum state `rollsum_t` of `src/enc.c`. -/
structure rollsum_t where
  s1 : ℕ
  s2 : ℕ
  weak_sum : ℕ
  havesum : Bool
deriving Repr, DecidableEq

/-- Modelled from the spec: the running-partial-sum accumulators of the
single-shot weak checksum over the `b` bytes starting at position `i` of the
byte stream `a`: at each step `s1` absorbs the next byte plus the offset
constant and `s2` absorbs the new `s1`, which yields
`s1 = sum (a (i+j) + offset)` and `s2 = sum (b - j) * (a (i+j) + offset)`.
The sums are reduced modulo `2 ^ 32` at the point of use, which agrees with
per-operation unsigned wraparound because only additions occur. -/
def calcSums (a : ℕ → ℕ) (i : ℕ) : ℕ → ℕ × ℕ
  | 0 => (0, 0)
  | n + 1 =>
      let p := calcSums a i n
      (p.1 + (a (i + n) + CHAR_OFFSET), p.2 + (p.1 + (a (i + n) + CHAR_OFFSET)))

/-- Modelled from the spec: the single-shot weak checksum `_hs_calc_weak_sum`
(not under `src/`), combining the two unsigned 32-bit accumulators as
`weak = s1 | (s2 << 16)`. -/
def hs_calc_weak_sum (a : ℕ → ℕ) (i b : ℕ) : ℕ :=
  ((calcSums a i b).1 % M32) ||| ((calcSums a i b).2 % M32 * 65536 % M32)

/-- Embedding of `_hs_update_sums` (src/enc.c lines 110-138) over a byte
stream `a` with `amount` valid bytes: on the first call it computes the weak
sum from scratch over `tbl` bytes at `cursor` and splits it into the two
accumulators; afterwards it adds the trailing byte of the window (position
`cursor + tbl - 1`) to `s1`, folds `s1` into `s2`, and recombines
`weak_sum = s1 + (s2 << 16)` in unsigned 32-bit arithmetic. -/
def hs_update_sums (a : ℕ → ℕ) (amount cursor tbl : ℕ) (r : rollsum_t) : rollsum_t :=
  if r.havesum = false then
    let w := hs_calc_weak_sum a cursor tbl
    { s1 := w &&& 65535, s2 := w >>> 16, weak_sum := w, havesum := true }
  else
    let pos := cursor + tbl - 1
    if pos ≤ amount then
      let s1 := (r.s1 + (a pos + CHAR_OFFSET)) % M32
      let s2 := (r.s2 + s1) % M32
      { s1 := s1, s2 := s2, weak_sum := (s1 + s2 * 65536 % M32) % M32, havesum := r.havesum }
    else r

/-- Embedding of `_hs_roll_sums` (src/enc.c lines 141-148): subtract the
leading byte's contribution from `s1` and its `block_len`-weighted
contribution from `s2`, in unsigned 32-bit arithmetic. -/
def hs_roll_sums (a : ℕ → ℕ) (cursor b : ℕ) (r : rollsum_t) : rollsum_t :=
  { r with
    s1 := sub32 r.s1 (a cursor + CHAR_OFFSET),
    s2 := sub32 r.s2 (b * (a cursor + CHAR_OFFSET)) }

/-- The rolling state the encode loop holds at window position `i` of stream
`a` with block length `b`, when it starts from a fresh computation at
position 0 and advances one byte at a time along the literal path: roll off
the leading byte with `_hs_roll_sums`, then add the trailing byte with
`_hs_update_sums`.  The `amount` argument is chosen so that the in-window
guard of `_hs_update_sums` is satisfied, as it always is in the driver. -/
def rolledAt (a : ℕ → ℕ) (b : ℕ) : ℕ → rollsum_t
  | 0 => hs_update_sums a (b + 1) 0 b ⟨0, 0, 0, false⟩
  | i + 1 => hs_update_sums a (i + 1 + b) (i + 1) b (hs_roll_sums a i b (rolledAt a b i))

/-- The statistics structure `hs_stats_t` accumulated by the encoder. -/
structure hs_stats_t where
  lit_cmds : ℕ
  lit_bytes : ℕ
  sig_cmds : ℕ
  sig_bytes : ℕ
  copy_cmds : ℕ
  copy_bytes : ℕ
deriving Repr, DecidableEq

/-- Embedding of the `bzero (stats, sizeof *stats)` call at the top of
`hs_encode`: every counter of the caller-supplied structure is cleared. -/
def bzeroStats (_s : hs_stats_t) : hs_stats_t := ⟨0, 0, 0, 0, 0, 0⟩

/-- A command of the emitted token stream. `ltHeader` is the littok-stream
header, `signatureCmd n` is the flushed new-signature sub-stream carrying `n`
bytes, and `eofCmd` the terminating null. -/
inductive Command where
  | ltHeader : Command
  | literal : List ℕ → Command
  | copy : ℕ → ℕ → Command
  | signatureCmd : ℕ → Command
  | eofCmd : Command
deriving Repr, DecidableEq

/-- One entry of the new-signature sub-stream: the weak sum written by
`_hs_output_block_hash` together with the absolute start position and the
length that the strong checksum is computed over (the `new_block_len`
argument the code passes to `_hs_calc_strong_sum`). -/
structure SigEntry where
  weak : ℕ
  start : ℕ
  len : ℕ
deriving Repr, DecidableEq

/-- Trace record of one iteration of the inner encode loop, taken at the top
of the iteration: buffer-absolute position data, the end-of-input flag, the
`this_block_len` used, whether a signature was emitted, and the token the
signature lookup returned. -/
structure Step where
  abspos : ℕ
  cursor : ℕ
  amount : ℕ
  atEof : Bool
  thisBlockLen : ℕ
  sigEmitted : Bool
  token : ℤ
deriving Repr, DecidableEq

/-- The encoder state threaded through the loop: statistics, the emitted
token stream, the accumulated new-signature entries, the pending literal
buffer, the rolling checksum state, and the iteration trace. -/
structure EncSt where
  stats : hs_stats_t
  cmds : List Command
  sigEntries : List SigEntry
  litbuf : List ℕ
  rollsum : rollsum_t
  trace : List Step
deriving Repr, DecidableEq

/-- Modelled from the spec: `_hs_flush_literal_buf` (not under `src/`).  A
non-empty pending buffer is emitted as one literal command and counted in
the statistics for its kind; an empty flush is a no-op. -/
def flushLit (st : EncSt) : EncSt :=
  if st.litbuf.isEmpty then st
  else
    { st with
      cmds := st.cmds ++ [Command.literal st.litbuf],
      stats := { st.stats with
                 lit_cmds := st.stats.lit_cmds + 1,
                 lit_bytes := st.stats.lit_bytes + st.litbuf.length },
      litbuf := [] }

/-- The inner scanning loop of `hs_encode` (src/enc.c lines 325-377), fuel
indexed so that it is structurally recursive; the callers supply fuel that
provably suffices whenever `1 ≤ b` (each iteration advances the cursor).
While the guard `at_eof ? cursor < amount : cursor + block_len <= amount`
holds: compute `this_block_len`, update the rolling sum, emit a signature
entry when the absolute cursor is block-aligned (recording the
`new_block_len` the code hands to the strong checksum), query the match
oracle `fM` (the external `_hs_find_in_hash`), and either emit a copy of
`token * block_len` offset and advance by `this_block_len`, or append one
literal byte, roll the checksum and advance by one. -/
def innerLoopF (fM : ℕ → List ℕ → ℤ) (b : ℕ) (atEof : Bool) (abspos : ℕ)
    (buf : List ℕ) : ℕ → ℕ → EncSt → ℕ × EncSt
  | 0, cursor, st => (cursor, st)
  | fuel + 1, cursor, st =>
    if (atEof = true ∧ cursor < buf.length) ∨ (atEof = false ∧ cursor + b ≤ buf.length) then
      let tbl := min b (buf.length - cursor)
      let r1 := hs_update_sums (fun j => buf.getD j 0) buf.length cursor tbl st.rollsum
      let sigR := decide ((abspos + cursor) % b = 0)
      let st1 := { st with
                   rollsum := r1,
                   sigEntries := if sigR then
                       st.sigEntries ++ [SigEntry.mk r1.weak_sum (abspos + cursor) b]
                     else st.sigEntries }
      let tok := fM r1.weak_sum ((buf.drop cursor).take tbl)
      let st2 := { st1 with
                   trace := st1.trace ++ [Step.mk abspos cursor buf.length atEof tbl sigR tok] }
      if 0 < tok then
        let st3 := flushLit st2
        let st4 := { st3 with
                     cmds := st3.cmds ++ [Command.copy (tok.toNat * b) tbl],
                     stats := { st3.stats with
                                copy_cmds := st3.stats.copy_cmds + 1,
                                copy_bytes := st3.stats.copy_bytes + tbl },
                     rollsum := { st3.rollsum with havesum := false } }
        innerLoopF fM b atEof abspos buf fuel (cursor + tbl) st4
      else
        let st3 := { st2 with
                     litbuf := st2.litbuf ++ [buf.getD cursor 0],
                     rollsum := hs_roll_sums (fun j => buf.getD j 0) cursor b r1 }
        innerLoopF fM b atEof abspos buf fuel (cursor + 1) st3
    else (cursor, st)

/-- The outer refill loop of `hs_encode` (src/enc.c lines 314-381), fuel
indexed.  Each round models `_hs_fill_inbuf` (modelled from the spec: read
up to the free capacity from the remaining upstream bytes; a zero-byte read
signals end of input), resets the cursor, runs the inner loop, and models
`_hs_slide_inbuf` (modelled from the spec: discard the consumed prefix and
advance the buffer's absolute position).  Returns the final absolute
position together with the encoder state. -/
def outerLoopF (fM : ℕ → List ℕ → ℤ) (b cap : ℕ) :
    ℕ → ℕ → List ℕ → List ℕ → EncSt → ℕ × EncSt
  | 0, abspos, _buf, _remaining, st => (abspos, st)
  | fuel + 1, abspos, buf, remaining, st =>
    let space := cap - buf.length
    let newb := remaining.take space
    let atEof := newb.isEmpty
    let buf2 := buf ++ newb
    let p := innerLoopF fM b atEof abspos buf2 (buf2.length + 1) 0 st
    if atEof then (abspos + p.1, p.2)
    else outerLoopF fM b cap fuel (abspos + p.1) (buf2.drop p.1) (remaining.drop space) p.2

/-- The encoder state at the start of the loop: zeroed/initial stats, the
littok header already written (src/enc.c line 300), no signature entries yet
(the 8-byte signature-stream header of `_hs_newsig_header` is accounted for
at flush time), and an invalid rolling sum (line 313). -/
def encInit (s : hs_stats_t) : EncSt :=
  ⟨s, [Command.ltHeader], [], [], ⟨0, 0, 0, false⟩, []⟩

/-- The final flushes of `hs_encode` (src/enc.c lines 383-396): flush the
pending literal buffer, flush the signature sub-stream (its 8-byte header
plus `4 + SUM_LENGTH` bytes per entry, counted as one signature command in
the stats, modelled from the spec's flush/stats contract), and emit the
end-of-stream marker. -/
def encodeFinish (st : EncSt) : EncSt :=
  let st1 := flushLit st
  let sigBytes := 8 + st1.sigEntries.length * (4 + SUM_LENGTH)
  let st2 := { st1 with
               cmds := st1.cmds ++ [Command.signatureCmd sigBytes],
               stats := { st1.stats with
                          sig_cmds := st1.stats.sig_cmds + 1,
                          sig_bytes := st1.stats.sig_bytes + sigBytes } }
  { st2 with cmds := st2.cmds ++ [Command.eofCmd] }

/-- The whole scan/match/emit phase of `hs_encode` for new-file bytes `N`,
block length `b`, window capacity `cap` and match oracle `fM`, starting from
statistics `s`: run the refill loop from an empty window at absolute
position 0, then perform the final flushes.  Returns the final absolute
position and the encoder state. -/
def hs_encode_loop (fM : ℕ → List ℕ → ℤ) (b cap : ℕ) (N : List ℕ)
    (s : hs_stats_t) : ℕ × EncSt :=
  let p := outerLoopF fM b cap (N.length + 1) 0 [] N (encInit s)
  (p.1, encodeFinish p.2)

/-- Big-endian (network order) value of a byte list. -/
def beVal (l : List ℕ) : ℕ := l.foldl (fun acc c => acc * 256 + c) 0

/-- The four network-order bytes of a 32-bit value. -/
def beBytes (v : ℕ) : List ℕ :=
  [v / 16777216 % 256, v / 65536 % 256, v / 256 % 256, v % 256]

/-- Modelled from the spec: `_hs_read_netlong` (not under `src/`) reads one
4-byte network-order field from a byte stream and returns the number of
bytes obtained (fewer than 4 only at end of stream), the decoded value, and
the rest of the stream. -/
def readNetlong (l : List ℕ) : ℕ × ℕ × List ℕ :=
  (min 4 l.length, beVal (l.take 4), l.drop 4)

/-- A well-formed signature-stream header for block length `b`. -/
def sigHeaderBytes (b : ℕ) : List ℕ := beBytes HS_SIG_MAGIC ++ beBytes b

/-- The literal-byte account of an encoder state: literal bytes already
counted in the statistics, pending literal-buffer bytes, and copy bytes.
The loop preserves the relation that this equals the number of input bytes
consumed so far. -/
def statsF (st : EncSt) : ℕ :=
  st.stats.lit_bytes + st.litbuf.length + st.stats.copy_bytes

/-- A match oracle that never matches. -/
def noMatch : ℕ → List ℕ → ℤ := fun _ _ => 0

/-- A match oracle that always reports token 1 (the first old-file block). -/
def alwaysTok1 : ℕ → List ℕ → ℤ := fun _ _ => 1

/-- A match oracle that reports token 1 exactly on the window `[2, 3, 4, 5]`,
which the input of the C7 counterexample presents only at the misaligned
cursor position 1. -/
def matchAt1 : ℕ → List ℕ → ℤ := fun _ w => if w = [2, 3, 4, 5] then 1 else 0

/-- The zero statistics record. -/
def statsZero : hs_stats_t := ⟨0, 0, 0, 0, 0, 0⟩

/-- The byte stream of the C3/C8 counterexamples: byte 0, then 229 bytes of
255, then byte 254; block length 230 drives the `s1` accumulator past
2 ^ 16, where the additive recombination `s1 + (s2 << 16)` of the roll path
diverges from the bitwise-or combination of a fresh computation. -/
def cexA : ℕ → ℕ := fun j => (0 :: (List.replicate 229 255 ++ [254])).getD j 0

/-- The constant-zero byte stream, used by witnesses. -/
def zeroA : ℕ → ℕ := fun _ => 0

/-- The constant-255 byte stream, used by witnesses. -/
def maxA : ℕ → ℕ := fun _ => 255


/-- Embedding of `hs_encode` (src/enc.c lines 264-414): zero the
caller-supplied stats, check the signature stream's magic with
`_hs_check_sig_version` (returning its result when negative), read the block
length with `_hs_read_blocksize` (failing with -1 on a short read), then run
the encode loop and return success together with the emitted command stream
and the statistics. -/
def hs_encode (sigStream N : List ℕ) (cap : ℕ) (fM : ℕ → List ℕ → ℤ)
    (stats0 : hs_stats_t) : ℤ × List Command × hs_stats_t :=
  let sz := bzeroStats stats0
  let r1 := readNetlong sigStream
  let csret : ℤ := if r1.1 ≠ 4 then (r1.1 : ℤ) else if r1.2.1 ≠ HS_SIG_MAGIC then -1 else 4
  if csret < 0 then (csret, [], sz)
  else
    let r2 := readNetlong r1.2.2
    if r2.1 ≠ 4 then ((-1 : ℤ), [], sz)
    else
      let st := (hs_encode_loop fM r2.2.1 cap N sz).2
      (1, st.cmds, st.stats)

theorem lor_mul_pow16_eq_add (z : ℕ) {x : ℕ} (hx : x < 65536) :
    x ||| (z * 65536) = x + z * 65536 := by
  have hx' : x < 2 ^ 16 := by omega
  have h65536 : (65536 : ℕ) = 2 ^ 16 := by norm_num
  apply Nat.eq_of_testBit_eq
  intro j
  rw [Nat.testBit_lor, h65536, Nat.mul_comm z (2 ^ 16),
    Nat.add_comm x (2 ^ 16 * z), Nat.testBit_mul_pow_two_add z hx' j,
    Nat.testBit_mul_pow_two]
  by_cases hj : j < 16
  · simp [hj, Nat.not_le.mpr hj]
  · have hxj : x.testBit j = false :=
      Nat.testBit_lt_two_pow
        (lt_of_lt_of_le hx' (Nat.pow_le_pow_right (by norm_num) (by omega)))
    simp [hj, hxj, Nat.le_of_not_lt hj]

theorem calcSums_fst_le (a : ℕ → ℕ) (i : ℕ) (ha : ∀ j, a j ≤ 255) :
    ∀ b, (calcSums a i b).1 ≤ b * (255 + CHAR_OFFSET)
  | 0 => by simp [calcSums]
  | b + 1 => by
      have ih := calcSums_fst_le a i ha b
      have hab := ha (i + b)
      simp only [calcSums, CHAR_OFFSET] at *
      omega

theorem calcSums_s1_shift (a : ℕ → ℕ) (i : ℕ) :
    ∀ b, (calcSums a (i + 1) b).1 + (a i + CHAR_OFFSET)
        = (calcSums a i b).1 + (a (i + b) + CHAR_OFFSET)
  | 0 => by simp [calcSums]
  | b + 1 => by
      have ih := calcSums_s1_shift a i b
      have h1 : i + 1 + b = i + (b + 1) := by omega
      simp only [calcSums, h1] at *
      omega

theorem calcSums_s2_shift (a : ℕ → ℕ) (i : ℕ) :
    ∀ b, (calcSums a (i + 1) b).2 + b * (a i + CHAR_OFFSET)
        = (calcSums a i b).2 + (calcSums a (i + 1) b).1
  | 0 => by simp [calcSums]
  | b + 1 => by
      have ih := calcSums_s2_shift a i b
      have hs1 := calcSums_s1_shift a i b
      have h1 : i + 1 + b = i + (b + 1) := by omega
      have hmul : (b + 1) * (a i + CHAR_OFFSET)
          = b * (a i + CHAR_OFFSET) + (a i + CHAR_OFFSET) := by ring
      simp only [calcSums, h1, hmul] at *
      generalize hw : b * (a i + CHAR_OFFSET) = w at ih ⊢
      omega

theorem hs_calc_weak_sum_eq_add (a : ℕ → ℕ) (i b : ℕ)
    (h : (calcSums a i b).1 < 65536) :
    hs_calc_weak_sum a i b
      = (calcSums a i b).1 + ((calcSums a i b).2 % 65536) * 65536 := by
  have e1 : (calcSums a i b).1 % M32 = (calcSums a i b).1 :=
    Nat.mod_eq_of_lt (by simp only [M32]; omega)
  have e2 : (calcSums a i b).2 % M32 * 65536 % M32
      = ((calcSums a i b).2 % 65536) * 65536 := by
    rw [show M32 = 65536 * 65536 from rfl, Nat.mul_mod_mul_right]
    congr 1
    exact Nat.mod_mod_of_dvd _ ⟨65536, rfl⟩
  rw [hs_calc_weak_sum, e1, e2, lor_mul_pow16_eq_add _ h]

/-- One roll-then-update transition of the literal path, written out on the
components of a valid rolling state. -/
theorem update_roll_step (a : ℕ → ℕ) (b i : ℕ) (r : rollsum_t) (hr : r.havesum = true) :
    hs_update_sums a (i + 1 + b) (i + 1) b (hs_roll_sums a i b r)
      = { s1 := (sub32 r.s1 (a i + CHAR_OFFSET) + (a (i + b) + CHAR_OFFSET)) % M32,
          s2 := (sub32 r.s2 (b * (a i + CHAR_OFFSET))
                  + (sub32 r.s1 (a i + CHAR_OFFSET) + (a (i + b) + CHAR_OFFSET)) % M32) % M32,
          weak_sum := ((sub32 r.s1 (a i + CHAR_OFFSET) + (a (i + b) + CHAR_OFFSET)) % M32
                  + (sub32 r.s2 (b * (a i + CHAR_OFFSET))
                      + (sub32 r.s1 (a i + CHAR_OFFSET) + (a (i + b) + CHAR_OFFSET)) % M32)
                    % M32 * 65536 % M32) % M32,
          havesum := true } := by
  simp only [hs_update_sums, hs_roll_sums]
  rw [hr]
  rw [if_neg (by simp)]
  rw [show i + 1 + b - 1 = i + b from by omega]
  rw [if_pos (by omega : i + b ≤ i + 1 + b)]

/-- The inductive invariant of the literal-path rolling chain: as long as the
`s1` accumulator cannot reach 2 ^ 16 (i.e. `block_len * (255 + offset)` fits
in 16 bits), the rolled state holds `s1` exactly, `s2` up to its low 16 bits,
and the recombined weak sum in additive form. -/
theorem rolled_invariant (a : ℕ → ℕ) (b : ℕ) (ha : ∀ j, a j ≤ 255)
    (hb : b * (255 + CHAR_OFFSET) < 65536) :
    ∀ i, (rolledAt a b i).s1 = (calcSums a i b).1
       ∧ (rolledAt a b i).s2 % 65536 = (calcSums a i b).2 % 65536
       ∧ (rolledAt a b i).havesum = true
       ∧ (rolledAt a b i).weak_sum
           = (calcSums a i b).1 + ((calcSums a i b).2 % 65536) * 65536 := by
  have hS1 : ∀ i, (calcSums a i b).1 < 65536 := fun i =>
    lt_of_le_of_lt (calcSums_fst_le a i ha b) hb
  intro i
  induction i with
  | zero =>
      have hw := hs_calc_weak_sum_eq_add a 0 b (hS1 0)
      have hand : hs_calc_weak_sum a 0 b &&& 65535 = hs_calc_weak_sum a 0 b % 65536 := by
        have := Nat.and_pow_two_sub_one_eq_mod (hs_calc_weak_sum a 0 b) 16
        norm_num at this
        exact this
      have hshr : hs_calc_weak_sum a 0 b >>> 16 = hs_calc_weak_sum a 0 b / 65536 := by
        have := Nat.shiftRight_eq_div_pow (hs_calc_weak_sum a 0 b) 16
        norm_num at this
        exact this
      have h0 : rolledAt a b 0
          = { s1 := hs_calc_weak_sum a 0 b &&& 65535,
              s2 := hs_calc_weak_sum a 0 b >>> 16,
              weak_sum := hs_calc_weak_sum a 0 b, havesum := true } := by
        simp [rolledAt, hs_update_sums]
      rw [h0]
      dsimp only
      have h1 := hS1 0
      refine ⟨?_, ?_, rfl, hw⟩
      · rw [hand, hw]
        omega
      · rw [hshr, hw]
        omega
  | succ i ih =>
      obtain ⟨ih1, ih2, ih3, ih4⟩ := ih
      have hxa : a i ≤ 255 := ha i
      have hya : a (i + b) ≤ 255 := ha (i + b)
      have hshift1 := calcSums_s1_shift a i b
      have hshift2 := calcSums_s2_shift a i b
      have hS1i := hS1 i
      have hS1i1 := hS1 (i + 1)
      have hstep :=
        update_roll_step a b i (rolledAt a b i) ih3
      have hroll : rolledAt a b (i + 1)
          = hs_update_sums a (i + 1 + b) (i + 1) b (hs_roll_sums a i b (rolledAt a b i)) := rfl
      rw [hroll, hstep, ih1]
      dsimp only
      have hs1' : (sub32 (calcSums a i b).1 (a i + CHAR_OFFSET) + (a (i + b) + CHAR_OFFSET)) % M32
          = (calcSums a (i + 1) b).1 := by
        simp only [sub32, M32, CHAR_OFFSET] at *
        omega
      have hs2' : (sub32 (rolledAt a b i).s2 (b * (a i + CHAR_OFFSET))
            + (calcSums a (i + 1) b).1) % M32 % 65536
          = (calcSums a (i + 1) b).2 % 65536 := by
        simp only [sub32, M32, CHAR_OFFSET] at *
        generalize hw : b * (a i + 31) = w at hshift2 ⊢
        omega
      refine ⟨hs1', by rw [hs1']; exact hs2', rfl, ?_⟩
      rw [hs1']
      have e2 : (sub32 (rolledAt a b i).s2 (b * (a i + CHAR_OFFSET))
            + (calcSums a (i + 1) b).1) % M32 * 65536 % M32
          = ((calcSums a (i + 1) b).2 % 65536) * 65536 := by
        rw [show M32 = 65536 * 65536 from rfl] at hs2' ⊢
        rw [Nat.mul_mod_mul_right, hs2']
      rw [e2]
      have hlt : (calcSums a (i + 1) b).1 + (calcSums a (i + 1) b).2 % 65536 * 65536 < M32 := by
        simp only [M32]
        omega
      exact Nat.mod_eq_of_lt hlt

/-- C1 (code_bug): with a signature lookup reporting token 1 for the sole
block, the loop emits `Copy(offset = token * block_len = 4)`, not the offset
`(token - 1) * block_len = 0` of the old-file block that actually matched
(1-based tokens, spec section 4.3); the emitted copy points one block past
the matched data. -/
theorem hs_encode_copy_offset_is_token_times_block_len :
    (hs_encode_loop alwaysTok1 4 4 [1, 2, 3, 4] statsZero).2.cmds
      = [Command.ltHeader, Command.copy 4 4, Command.signatureCmd 20, Command.eofCmd]
    ∧ (hs_encode_loop alwaysTok1 4 4 [1, 2, 3, 4] statsZero).2.trace.map Step.token = [1]
    ∧ (4 : ℕ) ≠ (1 - 1) * 4 := by decide

/-- C4 (code_bug): on the 6-byte input with block length 4, the second
signature is emitted at a step whose `this_block_len` is 2 (the short final
block), yet `_hs_output_block_hash` hands `_hs_calc_strong_sum` the full
`new_block_len = 4` starting at absolute offset 4, so the strong checksum
range `[4, 8)` overruns the 6 valid bytes, contradicting both the claim and
the file's own header comment (lines 42-44). -/
theorem short_final_block_strong_sum_overruns_window :
    ((hs_encode_loop noMatch 4 8 [10, 20, 30, 40, 50, 60] statsZero).2.trace.filter
        (fun s => s.sigEmitted)).map (fun s => s.thisBlockLen) = [4, 2]
    ∧ (hs_encode_loop noMatch 4 8 [10, 20, 30, 40, 50, 60] statsZero).2.sigEntries.map
        (fun e => (e.start, e.len)) = [(0, 4), (4, 4)]
    ∧ [10, 20, 30, 40, 50, 60].length < 4 + 4 := by decide

/-- C5 (counterexample): on a zero-length input the flushed signature
sub-stream still contains its 8-byte header, so the returned signature byte
counter is not zero, refuting the claim that every counter is zero. -/
theorem empty_input_stats_not_all_zero_cex :
    (hs_encode (sigHeaderBytes 4) [] 4 noMatch statsZero).2.2.sig_bytes ≠ 0 := by decide

/-- C10: `hs_encode` zeroes the caller-supplied stats structure before
anything else, so its entire result is independent of the structure's prior
contents. -/
theorem stats_zeroed_independent_of_prior
    (sig N : List ℕ) (cap : ℕ) (fM : ℕ → List ℕ → ℤ) (s0 s0' : hs_stats_t) :
    hs_encode sig N cap fM s0 = hs_encode sig N cap fM s0' := rfl

/-- C7 (counterexample): both conjuncts of the claim fail on inputs of
length exactly 2 * 4 with block length 4.  With no matches the inner loop
still takes iterations with `this_block_len < block_len` (at the misaligned
trailing cursor positions of the end-of-input phase), and with a match at
the misaligned cursor position 1 the cursor jumps over the aligned position
4, so only 1 signature is emitted instead of 2. -/
theorem exact_multiple_claim_cex :
    (¬ ((hs_encode_loop noMatch 4 4 [0, 0, 0, 0, 0, 0, 0, 0] statsZero).2.sigEntries.length = 2
        ∧ ∀ s ∈ (hs_encode_loop noMatch 4 4 [0, 0, 0, 0, 0, 0, 0, 0] statsZero).2.trace,
            s.thisBlockLen = 4))
    ∧ (hs_encode_loop matchAt1 4 8 [1, 2, 3, 4, 5, 6, 7, 8] statsZero).2.sigEntries.length = 1
    ∧ (1 : ℕ) ≠ 2 := by decide

/-- C3 (counterexample): with block length 230 the `s1` accumulator of the
all-high byte stream exceeds 2 ^ 16, and the weak sum obtained by rolling
forward one byte from position 0 differs from a fresh recomputation over
bytes `[1, 231)`. -/
theorem rolled_weak_sum_neq_fresh_recompute_cex :
    (rolledAt cexA 230 1).weak_sum ≠ hs_calc_weak_sum cexA 1 230 := by decide

/-- C3 (amended): the weak checksum held after advancing one byte at a time
from position 0 (roll-forward subtraction in `_hs_roll_sums` followed by the
trailing-byte addition in `_hs_update_sums`) equals a fresh full
recomputation over `[i, i + b)` for every window position `i`, provided the
block length keeps the `s1` accumulator within 16 bits,
i.e. `b * (255 + CHAR_OFFSET) < 2 ^ 16`; for larger blocks the additive
recombination of the roll path diverges from the bitwise-or combination of a
fresh computation (see the counterexample). -/
theorem rolled_weak_sum_eq_fresh_recompute_of_small_block
    (a : ℕ → ℕ) (b : ℕ) (ha : ∀ j, a j ≤ 255)
    (hb : b * (255 + CHAR_OFFSET) < 65536) (i : ℕ) :
    (rolledAt a b i).weak_sum = hs_calc_weak_sum a i b := by
  obtain ⟨-, -, -, h4⟩ := rolled_invariant a b ha hb i
  rw [h4, hs_calc_weak_sum_eq_add a i b (lt_of_le_of_lt (calcSums_fst_le a i ha b) hb)]

theorem rolled_weak_sum_eq_fresh_recompute_of_small_block_witness :
    (∀ j, zeroA j ≤ 255)
    ∧ 2 * (255 + CHAR_OFFSET) < 65536
    ∧ (rolledAt zeroA 2 1).weak_sum = hs_calc_weak_sum zeroA 1 2 := by
  refine ⟨fun j => Nat.zero_le 255, by decide, ?_⟩
  exact rolled_weak_sum_eq_fresh_recompute_of_small_block zeroA 2
    (fun j => Nat.zero_le 255) (by decide) 1

/-- C8 (amended): whenever the rolling state holds a valid sum reached by a
fresh computation followed by one-byte rolls, its `weak_sum` field equals
`s1 ||| (s2 <<< 16)` under unsigned 32-bit arithmetic provided the block
length keeps `s1` within 16 bits (`b * (255 + CHAR_OFFSET) < 2 ^ 16`); in
general the roll path stores `(s1 + (s2 <<< 16)) % 2 ^ 32`, which differs
once `s1` carries into the upper half (see the counterexample). -/
theorem weak_sum_field_decomposition_of_small_block
    (a : ℕ → ℕ) (b : ℕ) (ha : ∀ j, a j ≤ 255)
    (hb : b * (255 + CHAR_OFFSET) < 65536) (i : ℕ) :
    (rolledAt a b i).weak_sum
      = (rolledAt a b i).s1 ||| ((rolledAt a b i).s2 <<< 16 % M32) := by
  obtain ⟨h1, h2, -, h4⟩ := rolled_invariant a b ha hb i
  have hS1 : (calcSums a i b).1 < 65536 := lt_of_le_of_lt (calcSums_fst_le a i ha b) hb
  have hsh : (rolledAt a b i).s2 <<< 16 % M32 = ((calcSums a i b).2 % 65536) * 65536 := by
    rw [Nat.shiftLeft_eq, show ((2 : ℕ) ^ 16) = 65536 from by norm_num,
      show M32 = 65536 * 65536 from rfl, Nat.mul_mod_mul_right, h2]
  rw [h4, h1, hsh, lor_mul_pow16_eq_add _ hS1]

theorem weak_sum_field_decomposition_of_small_block_witness :
    (∀ j, maxA j ≤ 255)
    ∧ 3 * (255 + CHAR_OFFSET) < 65536
    ∧ (rolledAt maxA 3 2).weak_sum
        = (rolledAt maxA 3 2).s1 ||| ((rolledAt maxA 3 2).s2 <<< 16 % M32) := by
  refine ⟨fun j => le_refl 255, by decide, ?_⟩
  exact weak_sum_field_decomposition_of_small_block maxA 3
    (fun j => le_refl 255) (by decide) 2

theorem beVal_beBytes {v : ℕ} (hv : v < 4294967296) : beVal (beBytes v) = v := by
  simp only [beVal, beBytes, List.foldl]
  omega

theorem readNetlong_sigHeader (b : ℕ) :
    readNetlong (sigHeaderBytes b) = (4, HS_SIG_MAGIC, beBytes b) := rfl

theorem readNetlong_beBytes (b : ℕ) :
    readNetlong (beBytes b) = (4, beVal (beBytes b), []) := rfl

/-- C5 (amended): an encode call over a zero-length new-file input succeeds
and produces only the headers and the End marker; every literal and copy
counter is zero, but the flush of the signature sub-stream still counts its
8-byte header as one signature command with 8 bytes. -/
theorem empty_input_headers_end_and_stats (b cap : ℕ) (fM : ℕ → List ℕ → ℤ)
    (s0 : hs_stats_t) (hb : b < 4294967296) :
    hs_encode (sigHeaderBytes b) [] cap fM s0
      = (1, [Command.ltHeader, Command.signatureCmd 8, Command.eofCmd], ⟨0, 0, 1, 8, 0, 0⟩) := by
  simp only [hs_encode, readNetlong_sigHeader, readNetlong_beBytes, beVal_beBytes hb,
    hs_encode_loop, outerLoopF, innerLoopF, encodeFinish, encInit, flushLit, bzeroStats]
  norm_num [SUM_LENGTH]

theorem empty_input_headers_end_and_stats_witness :
    (4 : ℕ) < 4294967296
    ∧ hs_encode (sigHeaderBytes 4) [] 4 noMatch statsZero
        = (1, [Command.ltHeader, Command.signatureCmd 8, Command.eofCmd], ⟨0, 0, 1, 8, 0, 0⟩) :=
  ⟨by decide, empty_input_headers_end_and_stats 4 4 noMatch statsZero (by decide)⟩

/-- C6: when the signature stream is too short to hold the 4-byte magic, or
holds a magic different from the one understood value, `hs_encode` returns a
negative result with no byte written to the output sink. -/
theorem bad_or_short_magic_fails_before_output
    (sigStream N : List ℕ) (cap : ℕ) (fM : ℕ → List ℕ → ℤ) (s0 : hs_stats_t)
    (h : sigStream.length < 4 ∨ beVal (sigStream.take 4) ≠ HS_SIG_MAGIC) :
    (hs_encode sigStream N cap fM s0).1 < 0
    ∧ (hs_encode sigStream N cap fM s0).2.1 = [] := by
  by_cases hl : sigStream.length < 4
  · have hmin : min 4 sigStream.length = sigStream.length := by omega
    have hne : sigStream.length ≠ 4 := by omega
    have hdrop : sigStream.drop 4 = [] := List.drop_eq_nil_of_le (by omega)
    simp only [hs_encode, readNetlong, hmin, hdrop, List.length_nil]
    rw [if_pos hne]
    rw [if_neg (by omega : ¬ ((sigStream.length : ℤ) < 0))]
    norm_num
  · have hmag : beVal (sigStream.take 4) ≠ HS_SIG_MAGIC := h.resolve_left hl
    have hmin : min 4 sigStream.length = 4 := by omega
    simp only [hs_encode, readNetlong, hmin]
    rw [if_neg (by simp : ¬ ((4 : ℕ) ≠ 4))]
    rw [if_pos hmag]
    norm_num

theorem bad_or_short_magic_fails_before_output_witness :
    (([0, 1] : List ℕ).length < 4 ∨ beVal (([0, 1] : List ℕ).take 4) ≠ HS_SIG_MAGIC)
    ∧ (hs_encode [0, 1] [] 0 noMatch statsZero).1 < 0
    ∧ (hs_encode [0, 1] [] 0 noMatch statsZero).2.1 = [] :=
  ⟨Or.inl (by decide),
   bad_or_short_magic_fails_before_output [0, 1] [] 0 noMatch statsZero (Or.inl (by decide))⟩

/-- C8 (counterexample): in the same rolled state the `weak_sum` field, which
the roll path computes as `s1 + (s2 << 16)`, differs from the claimed
`s1 | (s2 << 16)` because `s1 ≥ 2 ^ 16` makes the addition carry into the
`s2` half. -/
theorem weak_sum_field_decomposition_cex :
    (rolledAt cexA 230 1).weak_sum
      ≠ (rolledAt cexA 230 1).s1 ||| ((rolledAt cexA 230 1).s2 <<< 16 % M32) := by decide

theorem statsF_flushLit (st : EncSt) : statsF (flushLit st) = statsF st := by
  simp only [flushLit, statsF]
  split
  case isTrue h => rfl
  case isFalse h => simp

theorem statsF_match_update (st : EncSt) (cs : List Command) (n : ℕ) (r : rollsum_t) :
    statsF { flushLit st with
             cmds := cs,
             stats := { (flushLit st).stats with
                        copy_cmds := (flushLit st).stats.copy_cmds + 1,
                        copy_bytes := (flushLit st).stats.copy_bytes + n },
             rollsum := r } = statsF st + n := by
  simp only [statsF, flushLit]
  split
  case isTrue h => omega
  case isFalse h =>
    simp
    omega

theorem inner_acct (fM : ℕ → List ℕ → ℤ) (b : ℕ) (atEof : Bool) (abspos : ℕ)
    (buf : List ℕ) :
    ∀ fuel cursor st,
      cursor ≤ (innerLoopF fM b atEof abspos buf fuel cursor st).1
      ∧ statsF (innerLoopF fM b atEof abspos buf fuel cursor st).2
          = statsF st + ((innerLoopF fM b atEof abspos buf fuel cursor st).1 - cursor)
  | 0, cursor, st => by simp [innerLoopF]
  | fuel + 1, cursor, st => by
      have step : ∀ c2 s2, cursor ≤ c2 → statsF s2 = statsF st + (c2 - cursor) →
          cursor ≤ (innerLoopF fM b atEof abspos buf fuel c2 s2).1
          ∧ statsF (innerLoopF fM b atEof abspos buf fuel c2 s2).2
              = statsF st + ((innerLoopF fM b atEof abspos buf fuel c2 s2).1 - cursor) := by
        intro c2 s2 h1 h2
        obtain ⟨g1, g2⟩ := inner_acct fM b atEof abspos buf fuel c2 s2
        exact ⟨le_trans h1 g1, by omega⟩
      simp only [innerLoopF]
      split
      case isFalse hg => simp
      case isTrue hg =>
        split
        case isTrue htok =>
          apply step
          · omega
          · rw [statsF_match_update]
            simp only [statsF]
            omega
        case isFalse htok =>
          apply step
          · omega
          · simp only [statsF]
            simp
            omega

theorem inner_complete (fM : ℕ → List ℕ → ℤ) (b : ℕ) (atEof : Bool) (abspos : ℕ)
    (buf : List ℕ) (hb : 1 ≤ b) :
    ∀ fuel cursor st,
      buf.length + 1 ≤ fuel + cursor →
      cursor ≤ buf.length →
      (atEof = true → (innerLoopF fM b atEof abspos buf fuel cursor st).1 = buf.length)
      ∧ (atEof = false →
           (innerLoopF fM b atEof abspos buf fuel cursor st).1 ≤ buf.length
           ∧ buf.length < (innerLoopF fM b atEof abspos buf fuel cursor st).1 + b)
  | 0, cursor, st => by
      intro hfuel hcur
      simp only [innerLoopF]
      constructor <;> intro he <;> omega
  | fuel + 1, cursor, st => by
      intro hfuel hcur
      simp only [innerLoopF]
      split
      case isFalse hg =>
        simp only [not_or, not_and] at hg
        obtain ⟨hg1, hg2⟩ := hg
        constructor
        · intro he
          have := hg1 he
          omega
        · intro he
          have := hg2 he
          omega
      case isTrue hg =>
        have htbl : 1 ≤ min b (buf.length - cursor) := by
          rcases hg with ⟨-, h⟩ | ⟨-, h⟩ <;> omega
        have hcur' : cursor < buf.length := by
          rcases hg with ⟨-, h⟩ | ⟨-, h⟩ <;> omega
        split
        case isTrue htok =>
          exact inner_complete fM b atEof abspos buf hb fuel _ _ (by omega) (by omega)
        case isFalse htok =>
          exact inner_complete fM b atEof abspos buf hb fuel _ _ (by omega) (by omega)

theorem outer_main (fM : ℕ → List ℕ → ℤ) (b cap : ℕ) (hb : 1 ≤ b) (hcap : b ≤ cap) :
    ∀ fuel abspos buf remaining st,
      buf.length < b →
      remaining.length + 1 ≤ fuel →
      (outerLoopF fM b cap fuel abspos buf remaining st).1
          = abspos + buf.length + remaining.length
      ∧ statsF (outerLoopF fM b cap fuel abspos buf remaining st).2
          = statsF st + buf.length + remaining.length
  | 0, abspos, buf, remaining, st => by
      intro hbuf hfuel
      exact absurd hfuel (by omega)
  | fuel + 1, abspos, buf, remaining, st => by
      intro hbuf hfuel
      have hspace : 1 ≤ cap - buf.length := by omega
      simp only [outerLoopF]
      split
      case isTrue hEof =>
        rw [List.isEmpty_iff, List.take_eq_nil_iff] at hEof
        have hrem : remaining = [] := by
          rcases hEof with h | h
          · omega
          · exact h
        subst hrem
        simp only [List.take_nil, List.append_nil, List.isEmpty_nil]
        have h1 := (inner_complete fM b true abspos buf hb (buf.length + 1) 0 st
          (by omega) (by omega)).1 rfl
        have h2 := (inner_acct fM b true abspos buf (buf.length + 1) 0 st).2
        constructor
        · rw [h1]
          simp
        · rw [h2, h1]
          simp
      case isFalse hEof =>
        rw [Bool.not_eq_true, List.isEmpty_eq_false] at hEof
        have hrem1 : 1 ≤ remaining.length := by
          rcases remaining with _ | ⟨r, rs⟩
          · exact absurd List.take_nil hEof
          · simp
        have hEof2 : (List.take (cap - buf.length) remaining).isEmpty = false := by
          rw [List.isEmpty_eq_false]
          exact hEof
        rw [hEof2]
        have hlen2 : (buf ++ List.take (cap - buf.length) remaining).length
            = buf.length + min (cap - buf.length) remaining.length := by
          simp [List.length_append, List.length_take]
        have hcomp := (inner_complete fM b false abspos
            (buf ++ List.take (cap - buf.length) remaining) hb
            ((buf ++ List.take (cap - buf.length) remaining).length + 1) 0 st
            (by omega) (by omega)).2 rfl
        have hacct := (inner_acct fM b false abspos
            (buf ++ List.take (cap - buf.length) remaining)
            ((buf ++ List.take (cap - buf.length) remaining).length + 1) 0 st).2
        generalize hp : innerLoopF fM b false abspos
            (buf ++ List.take (cap - buf.length) remaining)
            ((buf ++ List.take (cap - buf.length) remaining).length + 1) 0 st = p
        rw [hp] at hcomp hacct
        obtain ⟨g1, g2⟩ := outer_main fM b cap hb hcap fuel (abspos + p.1)
          ((buf ++ List.take (cap - buf.length) remaining).drop p.1)
          (remaining.drop (cap - buf.length)) p.2
          (by rw [List.length_drop]; omega)
          (by rw [List.length_drop]; omega)
        rw [g1, g2]
        rw [List.length_drop, List.length_drop, hlen2] at *
        constructor
        · omega
        · rw [hacct]
          omega

theorem encodeFinish_lit_copy (st : EncSt) :
    (encodeFinish st).stats.lit_bytes + (encodeFinish st).stats.copy_bytes = statsF st := by
  simp only [encodeFinish, flushLit, statsF]
  split
  case isTrue h =>
    rw [List.isEmpty_iff] at h
    simp [h]
  case isFalse h =>
    simp

/-- C2: for every successful encode over new-file bytes `N` (well-formed
signature header, positive block length not exceeding the window capacity),
the returned statistics satisfy `lit_bytes + copy_bytes = N.length`: every
input byte is accounted exactly once, as a literal byte or as part of a copy
command. -/
theorem hs_encode_literal_plus_copy_bytes_eq_input_length
    (b cap : ℕ) (N : List ℕ) (fM : ℕ → List ℕ → ℤ) (s0 : hs_stats_t)
    (hb : 1 ≤ b) (hcap : b ≤ cap) (hb32 : b < 4294967296) :
    (hs_encode (sigHeaderBytes b) N cap fM s0).2.2.lit_bytes
      + (hs_encode (sigHeaderBytes b) N cap fM s0).2.2.copy_bytes = N.length := by
  have hred : hs_encode (sigHeaderBytes b) N cap fM s0
      = (1, (hs_encode_loop fM b cap N (bzeroStats s0)).2.cmds,
            (hs_encode_loop fM b cap N (bzeroStats s0)).2.stats) := by
    simp only [hs_encode, readNetlong_sigHeader, readNetlong_beBytes, beVal_beBytes hb32]
    norm_num
  rw [hred]
  simp only [hs_encode_loop]
  rw [encodeFinish_lit_copy]
  obtain ⟨-, g2⟩ := outer_main fM b cap hb hcap (N.length + 1) 0 [] N
    (encInit (bzeroStats s0)) (by simpa using hb) (le_refl _)
  rw [g2]
  simp [statsF, encInit, bzeroStats]

theorem hs_encode_literal_plus_copy_bytes_eq_input_length_witness :
    ((1 : ℕ) ≤ 1 ∧ (1 : ℕ) ≤ 1 ∧ (1 : ℕ) < 4294967296)
    ∧ (hs_encode (sigHeaderBytes 1) [7] 1 noMatch statsZero).2.2.lit_bytes
      + (hs_encode (sigHeaderBytes 1) [7] 1 noMatch statsZero).2.2.copy_bytes
        = ([7] : List ℕ).length :=
  ⟨⟨le_refl 1, le_refl 1, by decide⟩,
   hs_encode_literal_plus_copy_bytes_eq_input_length 1 1 [7] noMatch statsZero
     (le_refl 1) (le_refl 1) (by decide)⟩

theorem flushLit_trace (st : EncSt) : (flushLit st).trace = st.trace := by
  simp only [flushLit]
  split <;> rfl

theorem flushLit_sigEntries (st : EncSt) : (flushLit st).sigEntries = st.sigEntries := by
  simp only [flushLit]
  split <;> rfl

theorem encodeFinish_trace (st : EncSt) : (encodeFinish st).trace = st.trace := by
  simp only [encodeFinish]
  rw [flushLit_trace]

theorem encodeFinish_sigEntries (st : EncSt) :
    (encodeFinish st).sigEntries = st.sigEntries := by
  simp only [encodeFinish]
  rw [flushLit_sigEntries]

theorem inner_c9 (fM : ℕ → List ℕ → ℤ) (b : ℕ) (atEof : Bool) (abspos : ℕ)
    (buf : List ℕ) :
    ∀ fuel cursor st s,
      s ∈ (innerLoopF fM b atEof abspos buf fuel cursor st).2.trace →
      s ∈ st.trace
      ∨ ((s.atEof = false → s.cursor + b ≤ s.amount)
         ∧ (s.atEof = true → s.cursor < s.amount
              ∧ s.thisBlockLen = min b (s.amount - s.cursor))
         ∧ s.cursor + s.thisBlockLen ≤ s.amount)
  | 0, cursor, st => by
      intro s hs
      simp only [innerLoopF] at hs
      exact Or.inl hs
  | fuel + 1, cursor, st => by
      intro s hs
      have step : ∀ c2 s2,
          (∀ t, t ∈ s2.trace → t ∈ st.trace
             ∨ ((t.atEof = false → t.cursor + b ≤ t.amount)
                ∧ (t.atEof = true → t.cursor < t.amount
                     ∧ t.thisBlockLen = min b (t.amount - t.cursor))
                ∧ t.cursor + t.thisBlockLen ≤ t.amount)) →
          s ∈ (innerLoopF fM b atEof abspos buf fuel c2 s2).2.trace →
          s ∈ st.trace
          ∨ ((s.atEof = false → s.cursor + b ≤ s.amount)
             ∧ (s.atEof = true → s.cursor < s.amount
                  ∧ s.thisBlockLen = min b (s.amount - s.cursor))
             ∧ s.cursor + s.thisBlockLen ≤ s.amount) := by
        intro c2 s2 hpre hmem
        rcases inner_c9 fM b atEof abspos buf fuel c2 s2 s hmem with h | h
        · exact hpre s h
        · exact Or.inr h
      simp only [innerLoopF] at hs
      revert hs
      split
      case isFalse hg =>
        intro hs
        exact Or.inl hs
      case isTrue hg =>
        split
        case isTrue htok =>
          apply step
          intro t ht
          rw [flushLit_trace] at ht
          simp only [List.mem_append, List.mem_singleton] at ht
          rcases ht with ht | ht
          · exact Or.inl ht
          · subst ht
            right
            rcases hg with ⟨he, hc⟩ | ⟨he, hc⟩
            · subst he
              refine ⟨?_, ?_, ?_⟩
              · intro h
                simp at h
              · intro h2
                exact ⟨hc, rfl⟩
              · dsimp only
                omega
            · subst he
              refine ⟨?_, ?_, ?_⟩
              · intro h2
                exact hc
              · intro h
                simp at h
              · dsimp only
                omega
        case isFalse htok =>
          apply step
          intro t ht
          simp only [List.mem_append, List.mem_singleton] at ht
          rcases ht with ht | ht
          · exact Or.inl ht
          · subst ht
            right
            rcases hg with ⟨he, hc⟩ | ⟨he, hc⟩
            · subst he
              refine ⟨?_, ?_, ?_⟩
              · intro h
                simp at h
              · intro h2
                exact ⟨hc, rfl⟩
              · dsimp only
                omega
            · subst he
              refine ⟨?_, ?_, ?_⟩
              · intro h2
                exact hc
              · intro h
                simp at h
              · dsimp only
                omega

theorem outer_c9 (fM : ℕ → List ℕ → ℤ) (b cap : ℕ) :
    ∀ fuel abspos buf remaining st s,
      s ∈ (outerLoopF fM b cap fuel abspos buf remaining st).2.trace →
      s ∈ st.trace
      ∨ ((s.atEof = false → s.cursor + b ≤ s.amount)
         ∧ (s.atEof = true → s.cursor < s.amount
              ∧ s.thisBlockLen = min b (s.amount - s.cursor))
         ∧ s.cursor + s.thisBlockLen ≤ s.amount)
  | 0, abspos, buf, remaining, st => by
      intro s hs
      simp only [outerLoopF] at hs
      exact Or.inl hs
  | fuel + 1, abspos, buf, remaining, st => by
      intro s hs
      simp only [outerLoopF] at hs
      revert hs
      split
      case isTrue hEof =>
        intro hs
        exact inner_c9 fM b _ abspos _ _ 0 st s hs
      case isFalse hEof =>
        intro hs
        rcases outer_c9 fM b cap fuel _ _ _ _ s hs with h | h
        · exact inner_c9 fM b _ abspos _ _ 0 st s h
        · exact Or.inr h

/-- C9: every iteration of the encode loop attempts a match at the cursor
only when a full block of readahead is available
(`cursor + block_len <= valid_len`) or end of input has been reached, in
which case the short final block has length `min block_len
(valid_len - cursor)`; in particular no match window ever extends past the
valid bytes (`cursor + this_block_len <= valid_len`). -/
theorem match_attempt_within_valid_window
    (fM : ℕ → List ℕ → ℤ) (b cap : ℕ) (N : List ℕ) (s0 : hs_stats_t) (s : Step)
    (hs : s ∈ (hs_encode_loop fM b cap N s0).2.trace) :
    (s.atEof = false → s.cursor + b ≤ s.amount)
    ∧ (s.atEof = true → s.cursor < s.amount
         ∧ s.thisBlockLen = min b (s.amount - s.cursor))
    ∧ s.cursor + s.thisBlockLen ≤ s.amount := by
  simp only [hs_encode_loop] at hs
  rw [encodeFinish_trace] at hs
  rcases outer_c9 fM b cap (N.length + 1) 0 [] N (encInit s0) s hs with h | h
  · simp [encInit] at h
  · exact h

theorem match_attempt_within_valid_window_witness :
    (Step.mk 0 0 1 false 1 true 0 ∈ (hs_encode_loop noMatch 1 1 [9] statsZero).2.trace)
    ∧ ((Step.mk 0 0 1 false 1 true 0).atEof = false
         → (Step.mk 0 0 1 false 1 true 0).cursor + 1 ≤ (Step.mk 0 0 1 false 1 true 0).amount)
    ∧ ((Step.mk 0 0 1 false 1 true 0).atEof = true
         → (Step.mk 0 0 1 false 1 true 0).cursor < (Step.mk 0 0 1 false 1 true 0).amount
           ∧ (Step.mk 0 0 1 false 1 true 0).thisBlockLen
               = min 1 ((Step.mk 0 0 1 false 1 true 0).amount - (Step.mk 0 0 1 false 1 true 0).cursor))
    ∧ (Step.mk 0 0 1 false 1 true 0).cursor + (Step.mk 0 0 1 false 1 true 0).thisBlockLen
        ≤ (Step.mk 0 0 1 false 1 true 0).amount :=
  ⟨by decide,
   match_attempt_within_valid_window noMatch 1 1 [9] statsZero
     (Step.mk 0 0 1 false 1 true 0) (by decide)⟩

theorem inner_trace_mono (fM : ℕ → List ℕ → ℤ) (b : ℕ) (atEof : Bool) (abspos : ℕ)
    (buf : List ℕ) :
    ∀ fuel cursor st, ∃ ext,
      (innerLoopF fM b atEof abspos buf fuel cursor st).2.trace = st.trace ++ ext
  | 0, cursor, st => ⟨[], by simp [innerLoopF]⟩
  | fuel + 1, cursor, st => by
      have step : ∀ c2 s2 (tr : List Step), s2.trace = st.trace ++ tr →
          ∃ ext, (innerLoopF fM b atEof abspos buf fuel c2 s2).2.trace = st.trace ++ ext := by
        intro c2 s2 tr htr
        obtain ⟨ext, hext⟩ := inner_trace_mono fM b atEof abspos buf fuel c2 s2
        exact ⟨tr ++ ext, by rw [hext, htr, List.append_assoc]⟩
      simp only [innerLoopF]
      split
      case isFalse hg => exact ⟨[], by simp⟩
      case isTrue hg =>
        split
        case isTrue htok =>
          apply step
          dsimp only
          rw [flushLit_trace]
        case isFalse htok =>
          apply step
          dsimp only

theorem outer_trace_mono (fM : ℕ → List ℕ → ℤ) (b cap : ℕ) :
    ∀ fuel abspos buf remaining st, ∃ ext,
      (outerLoopF fM b cap fuel abspos buf remaining st).2.trace = st.trace ++ ext
  | 0, abspos, buf, remaining, st => ⟨[], by simp [outerLoopF]⟩
  | fuel + 1, abspos, buf, remaining, st => by
      simp only [outerLoopF]
      split
      case isTrue hEof =>
        exact inner_trace_mono fM b _ abspos _ _ 0 st
      case isFalse hEof =>
        obtain ⟨e1, he1⟩ := inner_trace_mono fM b
          ((List.take (cap - buf.length) remaining).isEmpty) abspos
          (buf ++ List.take (cap - buf.length) remaining)
          ((buf ++ List.take (cap - buf.length) remaining).length + 1) 0 st
        obtain ⟨e2, he2⟩ := outer_trace_mono fM b cap fuel _ _ _ _
        exact ⟨e1 ++ e2, by rw [he2, he1, List.append_assoc]⟩

theorem inner_sig (fM : ℕ → List ℕ → ℤ) (b : ℕ) (atEof : Bool) (abspos : ℕ)
    (buf : List ℕ) (hb : 1 ≤ b)
    (heof : atEof = true → b ∣ (abspos + buf.length)) :
    ∀ fuel cursor st,
      abspos + cursor ≤ st.sigEntries.length * b →
      st.sigEntries.length * b < abspos + cursor + b →
      (abspos + (innerLoopF fM b atEof abspos buf fuel cursor st).1
           ≤ (innerLoopF fM b atEof abspos buf fuel cursor st).2.sigEntries.length * b
         ∧ (innerLoopF fM b atEof abspos buf fuel cursor st).2.sigEntries.length * b
             < abspos + (innerLoopF fM b atEof abspos buf fuel cursor st).1 + b)
      ∨ ∃ s ∈ (innerLoopF fM b atEof abspos buf fuel cursor st).2.trace,
          0 < s.token ∧ (s.abspos + s.cursor) % b ≠ 0
  | 0, cursor, st => by
      intro hpre1 hpre2
      simp only [innerLoopF]
      exact Or.inl ⟨hpre1, hpre2⟩
  | fuel + 1, cursor, st => by
      intro hpre1 hpre2
      have stepInv : ∀ c2 s2, abspos + c2 ≤ s2.sigEntries.length * b →
          s2.sigEntries.length * b < abspos + c2 + b →
          (abspos + (innerLoopF fM b atEof abspos buf fuel c2 s2).1
               ≤ (innerLoopF fM b atEof abspos buf fuel c2 s2).2.sigEntries.length * b
             ∧ (innerLoopF fM b atEof abspos buf fuel c2 s2).2.sigEntries.length * b
                 < abspos + (innerLoopF fM b atEof abspos buf fuel c2 s2).1 + b)
          ∨ ∃ s ∈ (innerLoopF fM b atEof abspos buf fuel c2 s2).2.trace,
              0 < s.token ∧ (s.abspos + s.cursor) % b ≠ 0 :=
        fun c2 s2 h1 h2 => inner_sig fM b atEof abspos buf hb heof fuel c2 s2 h1 h2
      have stepPoison : ∀ c2 s2 (s : Step), s ∈ s2.trace → 0 < s.token →
          (s.abspos + s.cursor) % b ≠ 0 →
          (abspos + (innerLoopF fM b atEof abspos buf fuel c2 s2).1
               ≤ (innerLoopF fM b atEof abspos buf fuel c2 s2).2.sigEntries.length * b
             ∧ (innerLoopF fM b atEof abspos buf fuel c2 s2).2.sigEntries.length * b
                 < abspos + (innerLoopF fM b atEof abspos buf fuel c2 s2).1 + b)
          ∨ ∃ s ∈ (innerLoopF fM b atEof abspos buf fuel c2 s2).2.trace,
              0 < s.token ∧ (s.abspos + s.cursor) % b ≠ 0 := by
        intro c2 s2 s hmem htk hal
        obtain ⟨ext, hext⟩ := inner_trace_mono fM b atEof abspos buf fuel c2 s2
        exact Or.inr ⟨s, by rw [hext]; exact List.mem_append_left _ hmem, htk, hal⟩
      simp only [innerLoopF]
      split
      case isFalse hg => exact Or.inl ⟨hpre1, hpre2⟩
      case isTrue hg =>
        by_cases hsig : (abspos + cursor) % b = 0
        · have hcnt : st.sigEntries.length * b = abspos + cursor := by
            obtain ⟨q, hq⟩ := Nat.dvd_of_mod_eq_zero hsig
            rw [hq] at hpre1 hpre2 ⊢
            rw [Nat.mul_comm st.sigEntries.length b] at hpre1 hpre2 ⊢
            have h1 : q ≤ st.sigEntries.length :=
              Nat.le_of_mul_le_mul_left hpre1 (by omega)
            have h2 : st.sigEntries.length < q + 1 := by
              apply Nat.lt_of_mul_lt_mul_left (a := b)
              calc b * st.sigEntries.length < b * q + b := hpre2
                _ = b * (q + 1) := by ring
            have h3 : st.sigEntries.length = q := by omega
            rw [h3]
          have htblb : min b (buf.length - cursor) = b := by
            rcases hg with ⟨he, hc⟩ | ⟨he, hc⟩
            · have hd1 : b ∣ (abspos + buf.length) := heof he
              have hd2 : b ∣ (abspos + cursor) := Nat.dvd_of_mod_eq_zero hsig
              have hd3 := Nat.dvd_sub' hd1 hd2
              have h4 : abspos + buf.length - (abspos + cursor) = buf.length - cursor := by
                omega
              rw [h4] at hd3
              have h5 := Nat.le_of_dvd (by omega) hd3
              omega
            · omega
          have hsigb : decide ((abspos + cursor) % b = 0) = true := decide_eq_true hsig
          rw [htblb, hsigb, if_pos rfl]
          split
          next htok =>
            apply stepInv
            · dsimp only
              rw [flushLit_sigEntries]
              dsimp only
              rw [List.length_append, List.length_singleton, Nat.add_mul, Nat.one_mul]
              omega
            · dsimp only
              rw [flushLit_sigEntries]
              dsimp only
              rw [List.length_append, List.length_singleton, Nat.add_mul, Nat.one_mul]
              omega
          next htok =>
            apply stepInv
            · dsimp only
              rw [List.length_append, List.length_singleton, Nat.add_mul, Nat.one_mul]
              omega
            · dsimp only
              rw [List.length_append, List.length_singleton, Nat.add_mul, Nat.one_mul]
              omega
        · have hne : abspos + cursor ≠ st.sigEntries.length * b := by
            intro he
            apply hsig
            rw [he]
            exact Nat.mul_mod_left _ _
          have hsigb : decide ((abspos + cursor) % b = 0) = false := by
            simp [hsig]
          rw [hsigb, if_neg (show ¬(false = true) from by simp)]
          split
          next htok =>
            refine stepPoison _ _
              (Step.mk abspos cursor buf.length atEof (min b (buf.length - cursor)) false
                (fM (hs_update_sums (fun j => buf.getD j 0) buf.length cursor
                      (min b (buf.length - cursor)) st.rollsum).weak_sum
                    (List.take (min b (buf.length - cursor)) (List.drop cursor buf))))
              ?_ ?_ ?_
            · dsimp only
              rw [flushLit_trace]
              dsimp only
              exact List.mem_append_right _ (List.mem_singleton_self _)
            · dsimp only
              exact htok
            · dsimp only
              exact hsig
          next htok =>
            apply stepInv
            · dsimp only
              omega
            · dsimp only
              omega

theorem count_mul_eq_of_aligned (b count pos : ℕ) (hb : 1 ≤ b) (hdvd : b ∣ pos)
    (h1 : pos ≤ count * b) (h2 : count * b < pos + b) : count * b = pos := by
  obtain ⟨q, hq⟩ := hdvd
  subst hq
  rw [Nat.mul_comm count b] at h1 h2 ⊢
  have hl : q ≤ count := Nat.le_of_mul_le_mul_left h1 (by omega)
  have hr : count < q + 1 := by
    apply Nat.lt_of_mul_lt_mul_left (a := b)
    calc b * count < b * q + b := h2
      _ = b * (q + 1) := by ring
  have hqc : count = q := by omega
  rw [hqc]

theorem outer_sig (fM : ℕ → List ℕ → ℤ) (b cap : ℕ) (hb : 1 ≤ b) (hcap : b ≤ cap) :
    ∀ fuel abspos buf remaining st,
      buf.length < b →
      remaining.length + 1 ≤ fuel →
      b ∣ (abspos + buf.length + remaining.length) →
      abspos ≤ st.sigEntries.length * b →
      st.sigEntries.length * b < abspos + b →
      ((outerLoopF fM b cap fuel abspos buf remaining st).2.sigEntries.length * b
          = abspos + buf.length + remaining.length)
      ∨ ∃ s ∈ (outerLoopF fM b cap fuel abspos buf remaining st).2.trace,
          0 < s.token ∧ (s.abspos + s.cursor) % b ≠ 0
  | 0, abspos, buf, remaining, st => by
      intro hbuf hfuel hdvd hpre1 hpre2
      exact absurd hfuel (by omega)
  | fuel + 1, abspos, buf, remaining, st => by
      intro hbuf hfuel hdvd hpre1 hpre2
      have hspace : 1 ≤ cap - buf.length := by omega
      simp only [outerLoopF]
      split
      case isTrue hEof =>
        rw [List.isEmpty_iff, List.take_eq_nil_iff] at hEof
        have hrem : remaining = [] := by
          rcases hEof with h | h
          · omega
          · exact h
        subst hrem
        simp only [List.take_nil, List.append_nil, List.isEmpty_nil, List.length_nil] at *
        have hdvd2 : b ∣ (abspos + buf.length) := by
          have he : abspos + buf.length + 0 = abspos + buf.length := by omega
          rw [he] at hdvd
          exact hdvd
        have hc := (inner_complete fM b true abspos buf hb (buf.length + 1) 0 st
          (by omega) (by omega)).1 rfl
        have hin := inner_sig fM b true abspos buf hb (fun _ => hdvd2)
          (buf.length + 1) 0 st (by omega) (by omega)
        rcases hin with ⟨g1, g2⟩ | hp
        · left
          rw [hc] at g1 g2
          exact count_mul_eq_of_aligned b _ _ hb hdvd2 g1 g2
        · right
          exact hp
      case isFalse hEof =>
        rw [Bool.not_eq_true, List.isEmpty_eq_false] at hEof
        have hrem1 : 1 ≤ remaining.length := by
          rcases remaining with _ | ⟨r, rs⟩
          · exact absurd List.take_nil hEof
          · simp
        have hEof2 : (List.take (cap - buf.length) remaining).isEmpty = false := by
          rw [List.isEmpty_eq_false]
          exact hEof
        rw [hEof2]
        have hlen2 : (buf ++ List.take (cap - buf.length) remaining).length
            = buf.length + min (cap - buf.length) remaining.length := by
          simp [List.length_append, List.length_take]
        have hcomp := (inner_complete fM b false abspos
            (buf ++ List.take (cap - buf.length) remaining) hb
            ((buf ++ List.take (cap - buf.length) remaining).length + 1) 0 st
            (by omega) (by omega)).2 rfl
        have hin := inner_sig fM b false abspos
            (buf ++ List.take (cap - buf.length) remaining) hb
            (fun h => absurd h (by simp))
            ((buf ++ List.take (cap - buf.length) remaining).length + 1) 0 st
            (by omega) (by omega)
        generalize hp12 : innerLoopF fM b false abspos
            (buf ++ List.take (cap - buf.length) remaining)
            ((buf ++ List.take (cap - buf.length) remaining).length + 1) 0 st = p
        rw [hp12] at hcomp hin
        rcases hin with ⟨g1, g2⟩ | hp
        · have hrec := outer_sig fM b cap hb hcap fuel (abspos + p.1)
            ((buf ++ List.take (cap - buf.length) remaining).drop p.1)
            (remaining.drop (cap - buf.length)) p.2
            (by rw [List.length_drop]; omega)
            (by rw [List.length_drop]; omega)
            (by
              rw [List.length_drop, List.length_drop, hlen2]
              have he : abspos + p.1
                    + (buf.length + min (cap - buf.length) remaining.length - p.1)
                    + (remaining.length - (cap - buf.length))
                  = abspos + buf.length + remaining.length := by
                rw [hlen2] at hcomp
                omega
              rw [he]
              exact hdvd)
            g1 g2
          rcases hrec with h | h
          · left
            rw [h, List.length_drop, List.length_drop, hlen2]
            rw [hlen2] at hcomp
            omega
          · right
            exact h
        · right
          obtain ⟨ext, hext⟩ := outer_trace_mono fM b cap fuel (abspos + p.1)
            ((buf ++ List.take (cap - buf.length) remaining).drop p.1)
            (remaining.drop (cap - buf.length)) p.2
          obtain ⟨s, hsmem, hs1, hs2⟩ := hp
          exact ⟨s, by rw [hext]; exact List.mem_append_left _ hsmem, hs1, hs2⟩

/-- C7 (amended): when the new-file length is exactly `k * block_len` and no
match succeeds at a block-misaligned cursor position (in particular whenever
no match succeeds at all), the encode emits exactly `k` signature entries;
a match at a misaligned position can skip an aligned one and lower the
count, and the inner loop does take short `this_block_len < block_len`
iterations at misaligned trailing cursors (see the counterexample). -/
theorem exact_multiple_signature_emissions
    (fM : ℕ → List ℕ → ℤ) (b cap k : ℕ) (N : List ℕ) (s0 : hs_stats_t)
    (hb : 1 ≤ b) (hcap : b ≤ cap) (hN : N.length = k * b)
    (halign : ∀ s ∈ (hs_encode_loop fM b cap N s0).2.trace,
        0 < s.token → (s.abspos + s.cursor) % b = 0) :
    (hs_encode_loop fM b cap N s0).2.sigEntries.length = k := by
  simp only [hs_encode_loop] at halign ⊢
  rw [encodeFinish_sigEntries]
  rw [encodeFinish_trace] at halign
  have hdvd : b ∣ (0 + ([] : List ℕ).length + N.length) := by
    simpa using (⟨k, by rw [hN, Nat.mul_comm]⟩ : b ∣ N.length)
  have h := outer_sig fM b cap hb hcap (N.length + 1) 0 [] N (encInit s0)
    (by simpa using hb) (le_refl _) hdvd
    (by simp [encInit]) (by simp [encInit]; omega)
  rcases h with h | hp
  · have h2 : (outerLoopF fM b cap (N.length + 1) 0 [] N (encInit s0)).2.sigEntries.length * b
        = k * b := by
      rw [h]
      simpa using hN
    exact Nat.eq_of_mul_eq_mul_right (by omega) h2
  · obtain ⟨s, hsmem, htk, hmal⟩ := hp
    exact absurd (halign s hsmem htk) hmal

theorem exact_multiple_signature_emissions_witness :
    ((1 : ℕ) ≤ 4 ∧ (4 : ℕ) ≤ 4 ∧ ([0, 0, 0, 0, 0, 0, 0, 0] : List ℕ).length = 2 * 4)
    ∧ (∀ s ∈ (hs_encode_loop noMatch 4 4 [0, 0, 0, 0, 0, 0, 0, 0] statsZero).2.trace,
         0 < s.token → (s.abspos + s.cursor) % 4 = 0)
    ∧ (hs_encode_loop noMatch 4 4 [0, 0, 0, 0, 0, 0, 0, 0] statsZero).2.sigEntries.length = 2 :=
  ⟨by decide, by decide,
   exact_multiple_signature_emissions noMatch 4 4 2 [0, 0, 0, 0, 0, 0, 0, 0] statsZero
     (by decide) (by decide) (by decide) (by decide)⟩

theorem stats_zeroed_independent_of_prior_witness :
    hs_encode [] [] 0 noMatch ⟨1, 2, 3, 4, 5, 6⟩ = hs_encode [] [] 0 noMatch statsZero :=
  stats_zeroed_independent_of_prior [] [] 0 noMatch ⟨1, 2, 3, 4, 5, 6⟩ statsZero
